import Mathlib

/-!
Shallow embedding of the TinyLLM retrieval-augmented-generation core
(`embedding_utils.py` and `webui.py`) and proofs about it.

Python strings are modelled as `List Char` (slicing clamps as in Python),
token sequences as `List Nat`, and the external embedding provider / FAISS
index / tokenizer as explicit oracle parameters with their documented
contracts stated as hypotheses where a theorem needs them.
-/

/-- `RAGHandler._chunk_text`, fuel-indexed translation of the `while` loop

    while start < text_len:
        chunk = text[start:start+chunk_size]
        chunks.append(chunk)
        start += chunk_size - overlap

One fuel unit per loop iteration; `text[start:start+size]` on the remaining
suffix is `take size`, and advancing `start` by `size - overlap` is
`drop (size - overlap)`.  When `overlap ≥ size` the Python loop does not
terminate on nonempty text; the fuel then runs out, so every theorem below
assumes `overlap < size` (the spec's precondition `0 <= overlap < size`). -/
def chunkTextAux (size overlap : Nat) : Nat → List Char → List (List Char)
  | 0, _ => []
  | fuel + 1, t =>
    if t.isEmpty then []
    else t.take size :: chunkTextAux size overlap fuel (t.drop (size - overlap))

/-- `RAGHandler._chunk_text` on a whole text: the loop consumes at least one
character per iteration (when `overlap < size`), so `t.length` fuel units
are enough. -/
def chunkText (t : List Char) (size overlap : Nat) : List (List Char) :=
  chunkTextAux size overlap t.length t

/-- `_chunk_text` with the source's default arguments
`chunk_size = 500, overlap = 50`. -/
def chunkTextDefault (t : List Char) : List (List Char) :=
  chunkText t 500 50

/-- Undo the overlap: first chunk, then every later chunk minus its first
`overlap` characters (the reconstruction described in spec §8). -/
def reconstruct (overlap : Nat) : List (List Char) → List Char
  | [] => []
  | c :: rest => c ++ (rest.map (fun d => d.drop overlap)).flatten

/-- Python slice `l[i:]` with an `Int` start: a negative start counts from
the end (clamped at 0), a nonnegative start is clamped at `len`. -/
def pySliceFrom (l : List Nat) (i : Int) : List Nat :=
  if i < 0 then l.drop (l.length - min (-i).toNat l.length)
  else l.drop (min i.toNat l.length)

/-- `LLMInterface.generate._prepare_generator` (webui.py): context budgeting
over the encoded prompt.  Computes `total_max_length = min(input_len +
max_tokens, 4096)`; when `input_len >= 4096` it replaces the input with
`input_tokens[-4096+max_tokens:]` and resets the budget to `4096`.  Returns
the (possibly truncated) token sequence and `total_max_length`.
In the truncation branch the initially computed `total_max_length` is
overwritten with the constant `4096`, so the two assignments are folded
into the two branches here. -/
def prepareGenerator (inputTokens : List Nat) (maxTokens : Nat) : List Nat × Nat :=
  if 4096 ≤ inputTokens.length then
    (pySliceFrom inputTokens ((maxTokens : Int) - 4096), 4096)
  else
    (inputTokens, min (inputTokens.length + maxTokens) 4096)

/-- Python `str.lower`, per character; the source only compares against
ASCII triggers, and on ASCII `Char.toLower` agrees with Python. -/
def pyLower (s : List Char) : List Char := s.map Char.toLower

/-- The characters Python `str.strip()` (no argument) removes, in ASCII:
space (32), tab (9), newline (10), carriage return (13), vertical tab (11),
form feed (12). -/
def isPyWs (c : Char) : Bool :=
  decide (c.toNat = 32 ∨ c.toNat = 9 ∨ c.toNat = 10 ∨ c.toNat = 13 ∨
    c.toNat = 11 ∨ c.toNat = 12)

/-- The characters `strip('!.,?')` removes: `!` (33), `.` (46), `,` (44),
`?` (63). -/
def isTrigPunct (c : Char) : Bool :=
  decide (c.toNat = 33 ∨ c.toNat = 46 ∨ c.toNat = 44 ∨ c.toNat = 63)

/-- Python `str.strip`: remove characters satisfying `p` from both ends. -/
def pyStrip (p : Char → Bool) (l : List Char) : List Char :=
  ((l.dropWhile p).reverse.dropWhile p).reverse

/-- Removal from the trailing end only (used to state the claim's reading
of the normalization, which mentions only trailing punctuation). -/
def stripTrailing (p : Char → Bool) (l : List Char) : List Char :=
  (l.reverse.dropWhile p).reverse

/-- The closed trigger set of `send_message` (webui.py):
`{'hi', 'hello', 'hey', 'thanks', 'thank you', 'bye', 'goodbye', 'ok',
'okay'}`. -/
def conversationalTriggers : List (List Char) :=
  [String.toList "hi", String.toList "hello", String.toList "hey",
   String.toList "thanks", String.toList "thank you", String.toList "bye",
   String.toList "goodbye", String.toList "ok", String.toList "okay"]

/-- `text.lower().strip().strip('!.,?') in conversational_triggers` from
`send_message` (webui.py, lines 247-248). -/
def isConversational (text : String) : Bool :=
  conversationalTriggers.contains
    (pyStrip isTrigPunct (pyStrip isPyWs (pyLower text.toList)))

/-- The normalization exactly as the claim states it: trim surrounding
whitespace, then the *trailing* punctuation characters `! . , ?` only, then
lower-case. -/
def specNormalizeStated (text : String) : List Char :=
  pyLower (stripTrailing isTrigPunct (pyStrip isPyWs text.toList))

/-- The amended normalization: punctuation trimmed at both ends (Python's
`strip('!.,?')` strips leading characters too). -/
def specNormalizeAmended (text : String) : List Char :=
  pyLower (pyStrip isTrigPunct (pyStrip isPyWs text.toList))

/-- A FAISS `IndexFlatL2`: its dimension and the stored vectors.  The
embedding scalars are opaque to the source (it never inspects them), so
they are modelled as `ℚ`; the claims only involve identity and count. -/
structure FaissIndex where
  dim : Nat
  vecs : List (List ℚ)
deriving DecidableEq

/-- `index.ntotal`. -/
def FaissIndex.ntotal (ix : FaissIndex) : Nat := ix.vecs.length

/-- The mutable fields of `RAGHandler`: the lazily loaded embedding-model
handle (`self.model`, tracked as loaded-or-not), the FAISS index
(`self.index`) and the chunk list (`self.chunks`). -/
structure RAGState where
  modelLoaded : Bool
  index : Option FaissIndex
  chunks : List String
deriving DecidableEq

/-- The embedding provider `self.model.encode`: one vector per input
string, or `none` when the call raises. -/
abbrev Encoder := List String → Option (List (List ℚ))

/-- `RAGHandler.create_index` on plain-text content (PDF/DOCX extraction is
an external collaborator, spec §1; the claims exercise the text branch).
Returns the handler state after the call, together with `.ok ()` on normal
return and `.error ()` when `model.encode` raises — the exception
propagates to the caller, but the field assignments that already executed
(`self.chunks = self._chunk_text(text)` happens *before* the `encode`
call) remain in place. -/
def create_index (enc : Encoder) (st : RAGState) (text : String) :
    RAGState × Except Unit Unit :=
  let st1 : RAGState := { st with modelLoaded := true }
  let chunks := (chunkTextDefault text.toList).map fun l => String.mk l
  let st2 : RAGState := { st1 with chunks := chunks }
  if chunks.isEmpty then (st2, .ok ())
  else
    match enc chunks with
    | none => (st2, .error ())
    | some embs =>
      let dimension := (embs.headD []).length
      ({ st2 with index := some ⟨dimension, embs⟩ }, .ok ())

/-- `RAGHandler.reset_index`. -/
def reset_index (st : RAGState) : RAGState :=
  { st with index := none, chunks := [] }

/-- Python `chunks[idx]` with an `Int` subscript: a negative index counts
from the end; `none` is an `IndexError`. -/
def pyIndex (l : List String) (i : Int) : Option String :=
  let j : Int := if i < 0 then (l.length : Int) + i else i
  if 0 ≤ j ∧ j < (l.length : Int) then l.get? j.toNat else none

/-- The `for idx in indices[0]` loop of `RAGHandler.query`: keep
`chunks[idx]` for every position that is not the `-1` sentinel and is
below `len(chunks)`. -/
def queryLoop (chunks : List String) : List Int → List String → Option (List String)
  | [], results => some results
  | idx :: rest, results =>
    if idx ≠ -1 ∧ idx < (chunks.length : Int) then
      match pyIndex chunks idx with
      | some s => queryLoop chunks rest (results ++ [s])
      | none => none
    else queryLoop chunks rest results

/-- The FAISS `index.search(query_vector, k)` call: given the index, the
encoded single-query batch and `k`, it yields the first (only) row of the
distance and position matrices (the `[0]` row extraction of the source is
folded into the oracle). -/
abbrev SearchOracle := FaissIndex → List (List ℚ) → Nat → List ℚ × List Int

/-- `RAGHandler.query`: empty result when no index or no chunks; otherwise
load the model, embed the query as a single-item batch, search, and map
kept positions back to chunk texts.  Returns the state after the call and
`some results` on normal return (`none` when a step raises). -/
def query (enc : Encoder) (search : SearchOracle) (st : RAGState)
    (queryText : String) (k : Nat) : RAGState × Option (List String) :=
  match st.index with
  | none => (st, some [])
  | some ix =>
    if st.chunks.isEmpty then (st, some [])
    else
      match enc [queryText] with
      | none => ({ st with modelLoaded := true }, none)
      | some qvecs =>
        ({ st with modelLoaded := true },
          queryLoop st.chunks (search ix qvecs k).2 [])

/-- The corpus-state invariant of spec §3: chunk count matches the index's
vector count when a corpus is active, and chunks are empty when no index
is present. -/
def corpusInvariant (st : RAGState) : Bool :=
  match st.index with
  | some ix => st.chunks.length == ix.ntotal
  | none => st.chunks.isEmpty

/-- The keep-condition of `query`'s loop. -/
def keptIdx (chunks : List String) (i : Int) : Bool :=
  decide (i ≠ -1 ∧ i < (chunks.length : Int))

/-- An embedding provider whose `encode` call raises. -/
def encFail : Encoder := fun _ => none

/-- An embedding provider returning one 3-dimensional vector per input. -/
def encConst : Encoder := fun cs => some (cs.map fun _ => [0, 0, 0])

/-- A handler state with an active one-chunk corpus. -/
def stActive : RAGState :=
  { modelLoaded := true, index := some ⟨3, [[1, 2, 3]]⟩, chunks := ["old"] }

/-- The fresh handler state (`RAGHandler.__init__`). -/
def stEmpty : RAGState := { modelLoaded := false, index := none, chunks := [] }

/-- A handler state with an active two-chunk corpus. -/
def stTwo : RAGState :=
  { modelLoaded := true, index := some ⟨1, [[0], [1]]⟩, chunks := ["a", "b"] }

/-- A search oracle returning one in-bounds hit, the `-1` sentinel, an
out-of-bounds position, and another in-bounds hit. -/
def searchTest : SearchOracle := fun _ _ _ => ([0, 1, 2, 3], [0, -1, 5, 1])

lemma chunkTextAux_nil (size overlap fuel : Nat) :
    chunkTextAux size overlap fuel [] = [] := by
  cases fuel <;> simp [chunkTextAux]

lemma chunkTextAux_cons (size overlap fuel : Nat) (t : List Char)
    (ht : t ≠ []) :
    chunkTextAux size overlap (fuel + 1) t =
      t.take size :: chunkTextAux size overlap fuel (t.drop (size - overlap)) := by
  simp [chunkTextAux, ht]

/-- Enough fuel makes the fuel parameter irrelevant (strong induction via an
explicit bound `k`). -/
lemma chunkTextAux_fuel_bounded (size overlap : Nat) (hso : overlap < size) :
    ∀ k fuel t, t.length ≤ fuel → fuel ≤ k →
      chunkTextAux size overlap fuel t = chunkText t size overlap := by
  intro k
  induction k with
  | zero =>
    intro fuel t ht hk
    interval_cases fuel
    have : t = [] := List.eq_nil_of_length_eq_zero (Nat.le_zero.mp ht)
    subst this
    simp [chunkText, chunkTextAux]
  | succ n ih =>
    intro fuel t ht hk
    match fuel, t with
    | _, [] => simp [chunkText, chunkTextAux_nil]
    | 0, t =>
      have : t = [] := List.eq_nil_of_length_eq_zero (Nat.le_zero.mp ht)
      subst this
      simp [chunkText, chunkTextAux_nil]
    | f + 1, a :: t' =>
      have ht0 : a :: t' ≠ [] := by simp
      have hstep : 0 < size - overlap := Nat.sub_pos_of_lt hso
      have hdrop : ((a :: t').drop (size - overlap)).length ≤ f := by
        simp only [List.length_drop, List.length_cons]
        simp only [List.length_cons] at ht
        omega
      obtain ⟨m, hm⟩ : ∃ m, (a :: t').length = m + 1 := ⟨t'.length, by simp⟩
      have hdropm : ((a :: t').drop (size - overlap)).length ≤ m := by
        simp only [List.length_drop, List.length_cons]
        simp only [List.length_cons] at hm
        omega
      have hL : chunkTextAux size overlap (f + 1) (a :: t') =
          (a :: t').take size ::
            chunkText ((a :: t').drop (size - overlap)) size overlap := by
        rw [chunkTextAux_cons _ _ _ _ ht0, ih f _ hdrop (by omega)]
      have hmn : m ≤ n := by
        simp only [List.length_cons] at hm ht
        omega
      have hR : chunkText (a :: t') size overlap =
          (a :: t').take size ::
            chunkText ((a :: t').drop (size - overlap)) size overlap := by
        rw [chunkText, hm, chunkTextAux_cons _ _ _ _ ht0, ih m _ hdropm hmn]
      rw [hL, hR]

/-- The chunks, with their overlaps dropped, flatten back to the
corresponding suffix of the text. -/
lemma chunkTextAux_flatten_drop (size overlap : Nat) (hso : overlap < size) :
    ∀ fuel t, t.length ≤ fuel →
      ((chunkTextAux size overlap fuel t).map (fun d => d.drop overlap)).flatten
        = t.drop overlap := by
  intro fuel
  induction fuel with
  | zero =>
    intro t ht
    have : t = [] := List.eq_nil_of_length_eq_zero (Nat.le_zero.mp ht)
    subst this
    simp [chunkTextAux]
  | succ n ih =>
    intro t ht
    by_cases ht0 : t = []
    · subst ht0
      simp [chunkTextAux_nil]
    · have hstep : 0 < size - overlap := Nat.sub_pos_of_lt hso
      have hlen : 0 < t.length := List.length_pos.mpr ht0
      have hdrop : (t.drop (size - overlap)).length ≤ n := by
        simp only [List.length_drop]
        omega
      rw [chunkTextAux_cons _ _ _ _ ht0]
      simp only [List.map_cons, List.flatten_cons, ih _ hdrop]
      rw [List.drop_take]
      have h1 : (t.drop (size - overlap)).drop overlap = t.drop size := by
        rw [List.drop_drop]
        congr 1
        omega
      rw [h1]
      have h2 : t.drop size = ((t.drop overlap).drop (size - overlap)) := by
        rw [List.drop_drop]
        congr 1
        omega
      rw [h2, List.take_append_drop]

lemma charOfNat_toNat (n : Nat) (h : n < 55296) : (Char.ofNat n).toNat = n := by
  unfold Char.ofNat
  rw [dif_pos (Or.inl h : n.isValidChar)]
  rfl

lemma isPyWs_toLower (c : Char) : isPyWs (Char.toLower c) = isPyWs c := by
  unfold Char.toLower
  by_cases h : c.toNat ≥ 65 ∧ c.toNat ≤ 90
  · rw [if_pos h]
    simp only [isPyWs, decide_eq_decide]
    rw [charOfNat_toNat (c.toNat + 32) (by omega)]
    omega
  · rw [if_neg h]

lemma isTrigPunct_toLower (c : Char) : isTrigPunct (Char.toLower c) = isTrigPunct c := by
  unfold Char.toLower
  by_cases h : c.toNat ≥ 65 ∧ c.toNat ≤ 90
  · rw [if_pos h]
    simp only [isTrigPunct, decide_eq_decide]
    rw [charOfNat_toNat (c.toNat + 32) (by omega)]
    omega
  · rw [if_neg h]

/-- Lower-casing commutes with stripping by a predicate that is invariant
under lower-casing. -/
lemma pyStrip_pyLower (p : Char → Bool) (hp : ∀ c, p (Char.toLower c) = p c)
    (l : List Char) : pyStrip p (pyLower l) = pyLower (pyStrip p l) := by
  have hfun : (p ∘ Char.toLower) = p := funext hp
  unfold pyStrip pyLower
  rw [List.dropWhile_map, hfun, ← List.map_reverse, List.dropWhile_map, hfun,
    ← List.map_reverse]

/-- C9 (amended): `isConversational` is membership of the normalized text in
the closed trigger set, where the normalization trims surrounding
whitespace, then the punctuation characters `! . , ?` from *both* ends,
then lower-cases; and the four cited examples behave as stated. -/
theorem conversational_spec :
    (∀ text : String,
      (isConversational text = true ↔
        specNormalizeAmended text ∈ conversationalTriggers)) ∧
    isConversational "hello" = true ∧
    isConversational "  HI!  " = true ∧
    isConversational "thanks." = true ∧
    isConversational "what is the refund policy" = false := by
  refine ⟨fun text => ?_, by decide, by decide, by decide, by decide⟩
  unfold isConversational specNormalizeAmended
  rw [pyStrip_pyLower isPyWs isPyWs_toLower,
    pyStrip_pyLower isTrigPunct isTrigPunct_toLower]
  exact List.elem_iff

/-- C9 counterexample: `"!hi"` is classified conversational by the code
(Python's `strip('!.,?')` also removes the *leading* `!`), but the claim's
normalization — which trims only trailing punctuation — leaves `"!hi"`,
which is not in the trigger set.  So the claimed equivalence fails. -/
theorem conversational_counterexample :
    isConversational "!hi" = true ∧
    conversationalTriggers.contains (specNormalizeStated "!hi") = false := by
  decide

/-- C6: for every text and every `0 ≤ overlap < size`, the chunk sequence
reconstructs the original text exactly: the first chunk, concatenated with
each later chunk minus its first `overlap` characters, is the text — no
characters lost or duplicated. -/
theorem chunk_reconstruct (t : List Char) (size overlap : Nat)
    (h : overlap < size) :
    reconstruct overlap (chunkText t size overlap) = t := by
  match t with
  | [] => rfl
  | a :: t' =>
    have hstep : 0 < size - overlap := Nat.sub_pos_of_lt h
    have ht0 : a :: t' ≠ [] := by simp
    rw [chunkText, List.length_cons, chunkTextAux_cons _ _ _ _ ht0]
    have hdrop : ((a :: t').drop (size - overlap)).length ≤ t'.length := by
      simp only [List.length_drop, List.length_cons]
      omega
    simp only [reconstruct]
    rw [chunkTextAux_flatten_drop size overlap h t'.length _ hdrop]
    rw [List.drop_drop]
    have hso : size - overlap + overlap = size := by omega
    rw [hso, List.take_append_drop]

/-- Witness for C6 at `"abcdef"`, `size = 5`, `overlap = 3`. -/
theorem chunk_reconstruct_witness :
    3 < 5 ∧ reconstruct 3 (chunkText "abcdef".toList 5 3) = "abcdef".toList :=
  ⟨by decide, chunk_reconstruct "abcdef".toList 5 3 (by decide)⟩

/-- C5 (amended): a nonempty text no longer than `size - overlap` (so in
particular shorter than `size`) yields exactly one chunk, the whole text.
(The original bound `len(text) < size` is not enough: the loop emits a
second chunk whenever `size - overlap < len(text)`, see the
counterexample.) -/
theorem chunk_short_text (t : List Char) (size overlap : Nat)
    (h0 : 0 < t.length) (h1 : t.length ≤ size - overlap) :
    chunkText t size overlap = [t] := by
  match t with
  | a :: t' =>
    have ht0 : a :: t' ≠ [] := by simp
    rw [chunkText, List.length_cons, chunkTextAux_cons _ _ _ _ ht0]
    have hd : ((a :: t').drop (size - overlap)) = [] := by
      apply List.drop_eq_nil_of_le
      simpa using h1
    rw [hd, chunkTextAux_nil]
    have : (a :: t').take size = a :: t' := by
      apply List.take_of_length_le
      simp only [List.length_cons] at h1 ⊢
      omega
    rw [this]

/-- Witness for the amended C5 at `"ab"` with the default
`size = 500, overlap = 50`. -/
theorem chunk_short_text_witness :
    0 < "ab".toList.length ∧ "ab".toList.length ≤ 500 - 50 ∧
      chunkText "ab".toList 500 50 = ["ab".toList] :=
  ⟨by decide, by decide, chunk_short_text "ab".toList 500 50 (by decide) (by decide)⟩

/-- C5 counterexample: `"abcd"` has length `4 < size = 5` and
`overlap = 3 < size`, yet `_chunk_text` returns two chunks
(`["abcd", "cd"]`), not one — the claim fails as stated. -/
theorem chunk_short_text_counterexample :
    0 < "abcd".toList.length ∧ "abcd".toList.length < 5 ∧ 3 < 5 ∧
      chunkText "abcd".toList 5 3 ≠ ["abcd".toList] := by
  decide

/-- C3 (amended): the total generation budget is always capped at the
context limit — `totalBudget = min(retainedLen + maxNewTokens, 4096) ≤
4096` — and in the truncation regime (`inputLen ≥ 4096`, `0 < maxNewTokens
< 4096`) the retained input count plus `maxNewTokens` is exactly `4096`.
When `inputLen < 4096` the input is kept whole, so `retainedLen +
maxNewTokens` itself may exceed the limit (see the counterexample). -/
theorem budget_amended (tokens : List Nat) (mt : Nat) :
    (prepareGenerator tokens mt).2 ≤ 4096 ∧
    (prepareGenerator tokens mt).2 =
      min ((prepareGenerator tokens mt).1.length + mt) 4096 ∧
    (4096 ≤ tokens.length → 0 < mt → mt < 4096 →
      (prepareGenerator tokens mt).1.length + mt = 4096) := by
  unfold prepareGenerator pySliceFrom
  by_cases h : (4096 : Nat) ≤ tokens.length
  · rw [if_pos h]
    by_cases hmt : ((mt : Int) - 4096 < 0)
    · rw [if_pos hmt]
      simp only [List.length_drop]
      refine ⟨le_refl _, ?_, fun _ _ _ => ?_⟩ <;> omega
    · rw [if_neg hmt]
      simp only [List.length_drop]
      refine ⟨le_refl _, ?_, fun _ _ h2 => ?_⟩ <;> omega
  · rw [if_neg h]
    refine ⟨?_, rfl, fun h1 _ _ => ?_⟩ <;> omega

/-- Witness for the amended C3 in the truncation regime (5000 input
tokens, 500 new tokens). -/
theorem budget_amended_witness :
    (prepareGenerator (List.range 5000) 500).1.length + 500 = 4096 :=
  (budget_amended (List.range 5000) 500).2.2
    (by rw [List.length_range]; omega) (by omega) (by omega)

/-- C3 counterexample: with 4000 input tokens and `maxNewTokens = 500` no
truncation happens (4000 < 4096), all 4000 tokens are retained, and
`retainedLen + maxNewTokens = 4500 > 4096` — the claimed inequality fails
as stated (only the combined budget `total_max_length` is capped). -/
theorem budget_counterexample :
    (prepareGenerator (List.replicate 4000 0) 500).1.length + 500 = 4500 ∧
    4096 < 4500 := by
  refine ⟨?_, by omega⟩
  unfold prepareGenerator
  rw [if_neg (by rw [List.length_replicate]; omega)]
  rw [List.length_replicate]

/-- C4: when `inputLen ≥ 4096` and `0 < maxNewTokens < 4096`, truncation
keeps exactly the trailing `4096 - maxNewTokens` input tokens (dropping the
earliest ones) and sets the budget to exactly `4096`. -/
theorem truncation_keeps_trailing (tokens : List Nat) (mt : Nat)
    (hlen : 4096 ≤ tokens.length) (h0 : 0 < mt) (h1 : mt < 4096) :
    (prepareGenerator tokens mt).1 = tokens.drop (tokens.length - (4096 - mt)) ∧
    (prepareGenerator tokens mt).1.length = 4096 - mt ∧
    (prepareGenerator tokens mt).2 = 4096 := by
  unfold prepareGenerator pySliceFrom
  rw [if_pos hlen, if_pos (by omega : (mt : Int) - 4096 < 0)]
  refine ⟨?_, ?_, rfl⟩
  · exact congrArg (fun n => List.drop n tokens)
      (by omega : tokens.length - min (-((mt : Int) - 4096)).toNat tokens.length
        = tokens.length - (4096 - mt))
  · simp only [List.length_drop]
    omega

/-- Witness for C4 at the spec's example: `inputLen = 5000`,
`maxNewTokens = 500` — retained input is the trailing 3596 tokens and
`3596 + 500 = 4096` exactly. -/
theorem truncation_keeps_trailing_witness :
    (prepareGenerator (List.range 5000) 500).1 = (List.range 5000).drop 1404 ∧
    (prepareGenerator (List.range 5000) 500).1.length = 3596 ∧
    3596 + 500 = 4096 := by
  have h := truncation_keeps_trailing (List.range 5000) 500
    (by rw [List.length_range]; omega) (by omega) (by omega)
  refine ⟨?_, ?_, by omega⟩
  · rw [h.1, List.length_range]
  · rw [h.2.1]

/-- Unfolding `queryLoop`: under the FAISS contract that returned positions
are `≥ -1`, the loop returns (without raising) the chunk texts at the kept
positions, in the order the search produced them. -/
lemma queryLoop_eq (chunks : List String) :
    ∀ (idxs : List Int) (acc : List String),
      (∀ i ∈ idxs, -1 ≤ i) →
      queryLoop chunks idxs acc =
        some (acc ++ (idxs.filter (keptIdx chunks)).map
          (fun i => chunks.getD i.toNat "")) := by
  intro idxs
  induction idxs with
  | nil =>
    intro acc _
    simp [queryLoop]
  | cons idx rest ih =>
    intro acc hsent
    have hrest : ∀ i ∈ rest, -1 ≤ i := fun i hi =>
      hsent i (List.mem_cons_of_mem _ hi)
    have hidx : -1 ≤ idx := hsent idx (List.mem_cons_self _ _)
    by_cases hk : idx ≠ -1 ∧ idx < (chunks.length : Int)
    · have h0 : (0 : Int) ≤ idx := by omega
      have hneg : ¬ idx < 0 := by omega
      have hlt : idx.toNat < chunks.length := by omega
      have hpy : pyIndex chunks idx = some (chunks.getD idx.toNat "") := by
        simp only [pyIndex, hneg, if_false]
        rw [if_pos ⟨h0, hk.2⟩]
        simp [List.getD, List.getElem?_eq_getElem hlt]
      have hkept : keptIdx chunks idx = true := by
        simp [keptIdx, hk.1, hk.2]
      simp only [queryLoop, if_pos hk, hpy]
      rw [ih _ hrest, List.filter_cons_of_pos hkept]
      simp
    · have hkept : keptIdx chunks idx = false := by
        simp only [keptIdx, decide_eq_false_iff_not]
        exact hk
      simp only [queryLoop, if_neg hk]
      rw [ih _ hrest, List.filter_cons_of_neg (by simp [hkept])]

/-- C7: on an active corpus, `query` returns normally with at most `k`
chunk texts; exactly the search positions that are the `-1` sentinel or
out of corpus bounds are silently discarded (the result is the map of the
kept positions, in search order); and any ordering relation holding
pairwise along the search output — in particular ascending distance with
ties broken by lower ordinal, the documented FAISS output order — is
preserved by the kept positions, so results come back best match first. -/
theorem query_results (enc : Encoder) (search : SearchOracle) (st : RAGState)
    (q : String) (k : Nat) (ix : FaissIndex) (qvecs : List (List ℚ))
    (hix : st.index = some ix) (hch : ¬ st.chunks.isEmpty)
    (henc : enc [q] = some qvecs)
    (hk : (search ix qvecs k).2.length = k)
    (hsent : ∀ i ∈ (search ix qvecs k).2, -1 ≤ i) :
    ∃ res : List String,
      query enc search st q k = ({ st with modelLoaded := true }, some res) ∧
      res.length ≤ k ∧
      res = ((search ix qvecs k).2.filter (keptIdx st.chunks)).map
        (fun i => st.chunks.getD i.toNat "") ∧
      (∀ r : Int → Int → Prop, (search ix qvecs k).2.Pairwise r →
        ((search ix qvecs k).2.filter (keptIdx st.chunks)).Pairwise r) := by
  refine ⟨((search ix qvecs k).2.filter (keptIdx st.chunks)).map
      (fun i => st.chunks.getD i.toNat ""), ?_, ?_, rfl, ?_⟩
  · unfold query
    rw [hix]
    simp only [if_neg hch, henc]
    rw [queryLoop_eq st.chunks _ [] hsent]
    simp
  · rw [List.length_map]
    exact le_trans (List.length_filter_le _ _) (le_of_eq hk)
  · intro r hr
    exact hr.sublist (List.filter_sublist _)

/-- Witness for C7: a two-chunk corpus queried with `k = 4`, where the
search returns an in-bounds hit, the `-1` sentinel, an out-of-bounds
position and another in-bounds hit. -/
theorem query_results_witness :
    ∃ res : List String,
      query encConst searchTest stTwo "q" 4 =
        ({ stTwo with modelLoaded := true }, some res) ∧
      res.length ≤ 4 ∧
      res = ((searchTest ⟨1, [[0], [1]]⟩ [[0, 0, 0]] 4).2.filter
          (keptIdx stTwo.chunks)).map (fun i => stTwo.chunks.getD i.toNat "") ∧
      (∀ r : Int → Int → Prop,
        (searchTest ⟨1, [[0], [1]]⟩ [[0, 0, 0]] 4).2.Pairwise r →
        ((searchTest ⟨1, [[0], [1]]⟩ [[0, 0, 0]] 4).2.filter
          (keptIdx stTwo.chunks)).Pairwise r) :=
  query_results encConst searchTest stTwo "q" 4 ⟨1, [[0], [1]]⟩ [[0, 0, 0]]
    rfl (by decide) rfl rfl (by decide)

/-- C10: `query` never modifies the corpus state — the stored chunk list
and the stored index are identical before and after every call; the state
is either fully unchanged (empty-corpus early return) or changed only in
the lazily-loaded embedding-model handle. -/
theorem query_preserves_corpus (enc : Encoder) (search : SearchOracle)
    (st : RAGState) (q : String) (k : Nat) :
    (query enc search st q k).1.index = st.index ∧
    (query enc search st q k).1.chunks = st.chunks ∧
    ((query enc search st q k).1 = st ∨
      (query enc search st q k).1 = { st with modelLoaded := true }) := by
  unfold query
  split
  · exact ⟨rfl, rfl, Or.inl rfl⟩
  · split
    · exact ⟨rfl, rfl, Or.inl rfl⟩
    · split
      · exact ⟨rfl, rfl, Or.inr rfl⟩
      · exact ⟨rfl, rfl, Or.inr rfl⟩

/-- C1 (code bug): with an active corpus (chunk `"old"`, one indexed
vector) and an embedding provider that raises, `create_index("new")` fails
— yet `self.chunks` was already replaced before the `encode` call, so the
previously active corpus is *not* preserved unchanged (the old index
remains while the chunks are the new ones). -/
theorem create_index_failure_mutates :
    (create_index encFail stActive "new").2 = Except.error () ∧
    (create_index encFail stActive "new").1.index = stActive.index ∧
    (create_index encFail stActive "new").1.chunks = ["new"] ∧
    stActive.chunks = ["old"] ∧
    (create_index encFail stActive "new").1.chunks ≠ stActive.chunks :=
  ⟨rfl, rfl, rfl, rfl, by decide⟩

/-- C2 (code bug): the corpus invariant `len(chunks) == index.ntotal (or
both empty)` holds before but *not* after `create_index("")` on an active
corpus: the early return for empty chunk lists never clears the old index,
leaving empty chunks next to a stale one-vector index. -/
theorem corpus_invariant_violated :
    corpusInvariant stActive = true ∧
    (create_index encConst stActive "").2 = Except.ok () ∧
    (create_index encConst stActive "").1.chunks = [] ∧
    (create_index encConst stActive "").1.index = some ⟨3, [[1, 2, 3]]⟩ ∧
    corpusInvariant (create_index encConst stActive "").1 = false :=
  ⟨by decide, rfl, rfl, rfl, by decide⟩

/-- C8 counterexample: `create_index("")` on a previously active corpus
does *not* yield the empty-corpus state — the chunk list is emptied but
the previous index object is left in place. -/
theorem empty_build_keeps_stale_index :
    (create_index encConst stActive "").1.chunks = [] ∧
    (create_index encConst stActive "").1.index ≠ none :=
  ⟨rfl, by decide⟩

/-- C8 (amended): `create_index` on input whose chunk sequence is empty
returns successfully (not an error) with an empty chunk list and without
constructing a new index — the previous index object, if any, stays stored
(though unreachable through `query`); and `query` on an empty corpus (no
index or no chunks) returns an empty sequence with the state untouched. -/
theorem empty_corpus_behavior (enc : Encoder) (search : SearchOracle)
    (st st2 : RAGState) (text q : String) (k : Nat)
    (hempty : chunkTextDefault text.toList = [])
    (h2 : st2.index = none ∨ st2.chunks = []) :
    create_index enc st text =
      ({ st with modelLoaded := true, chunks := [] }, Except.ok ()) ∧
    query enc search st2 q k = (st2, some []) := by
  constructor
  · have hempty2 : chunkTextDefault text.data = [] := hempty
    simp [create_index, hempty, hempty2]
  · unfold query
    rcases h2 with h | h
    · rw [h]
    · cases hix : st2.index with
      | none => rfl
      | some ix =>
        rw [h]
        simp

/-- Witness for the amended C8: building from the empty string over an
active corpus, and querying the fresh empty handler state. -/
theorem empty_corpus_behavior_witness :
    create_index encConst stActive "" =
      ({ stActive with modelLoaded := true, chunks := [] }, Except.ok ()) ∧
    query encConst searchTest stEmpty "x" 3 = (stEmpty, some []) :=
  empty_corpus_behavior encConst searchTest stActive stEmpty "" "x" 3
    rfl (Or.inl rfl)
